import Mathlib

/-!
Verification of the mcp-registry-service catalog and webhook pipeline.

The Go sources are shallowly embedded: Go strings and byte slices become
`List Nat` (one entry per byte, each < 256 for real data), stateful code
becomes explicit state passing over a `RegState` record, fallible code
returns `Except`/`Option`, and external library primitives that the
repository only calls (YAML/JSON decoding, HMAC-SHA256, the LRU cache's
internals) appear as explicit function parameters or as small faithful
models.  Time stamps (`lastSyncAt`, `publishedAt`) and logging are not
observable by any property below and are omitted from the state.
-/

set_option maxRecDepth 4000

namespace MCPRegistry

/-- Go strings / byte slices: a list of byte values. -/
abbrev GoStr := List Nat

/-- Byte string literal helper (ASCII): `gs "abc" = [97, 98, 99]`. -/
def gs (s : String) : GoStr := s.data.map Char.toNat

/-- Go `<` on strings: lexicographic byte-wise comparison
(`registry.go` sorts with `servers[i].Name < servers[j].Name`). -/
def strLt : GoStr → GoStr → Bool
  | [], [] => false
  | [], _ :: _ => true
  | _ :: _, [] => false
  | a :: as, b :: bs => if a < b then true else if b < a then false else strLt as bs

/-- Reflexive closure of `strLt`, the order `list` pages are sorted by. -/
def strLe (a b : GoStr) : Prop := strLt a b = true ∨ a = b

instance (a b : GoStr) : Decidable (strLe a b) :=
  inferInstanceAs (Decidable (_ ∨ _))

/-! ### Data model (`internal/domain`) -/

/-- Embeds `domain.IndexEntry`: one row of `index.yaml`. -/
structure IndexEntry where
  name : GoStr
  path : GoStr
  description : GoStr
  version : GoStr
  labels : List (GoStr × GoStr)
deriving DecidableEq

/-- Embeds `domain.Index`: the parsed `index.yaml`. -/
structure Index where
  version : GoStr
  commit : GoStr
  updatedAt : GoStr
  servers : List IndexEntry
deriving DecidableEq

/-- Embeds `domain.KeyValueInput`. -/
structure KeyValueInput where
  name : GoStr
  description : GoStr
  isRequired : Bool
  isSecret : Bool
  default : GoStr
  choices : List GoStr
deriving DecidableEq

/-- Embeds `domain.EnvironmentVariable` (same field set as `KeyValueInput`). -/
structure EnvironmentVariable where
  name : GoStr
  description : GoStr
  isRequired : Bool
  isSecret : Bool
  default : GoStr
  choices : List GoStr
deriving DecidableEq

/-- Embeds `domain.Argument`. -/
structure Argument where
  type : GoStr
  name : GoStr
  description : GoStr
  isRequired : Bool
  default : GoStr
  choices : List GoStr
deriving DecidableEq

/-- Embeds `domain.Transport`. -/
structure Transport where
  type : GoStr
  url : GoStr
  headers : List KeyValueInput
deriving DecidableEq

/-- Embeds `domain.Repository`. -/
structure Repository where
  url : GoStr
  source : GoStr
  id : GoStr
deriving DecidableEq

/-- Embeds `domain.Package`. -/
structure Package where
  registryType : GoStr
  registryBaseURL : GoStr
  identifier : GoStr
  version : GoStr
  fileSHA256 : GoStr
  runtimeHint : GoStr
  transport : Transport
  environmentVariables : List EnvironmentVariable
  packageArguments : List Argument
  runtimeArguments : List Argument
deriving DecidableEq

/-- Embeds `domain.Remote`. -/
structure Remote where
  type : GoStr
  url : GoStr
  headers : List KeyValueInput
deriving DecidableEq

/-- Embeds `domain.ServerJSON`: one manifest. -/
structure ServerJSON where
  schema : GoStr
  name : GoStr
  description : GoStr
  version : GoStr
  title : GoStr
  websiteURL : GoStr
  repository : Option Repository
  packages : List Package
  remotes : List Remote
deriving DecidableEq

/-- The Go zero value of `domain.ServerJSON` (all strings empty, slices nil). -/
def zeroServer : ServerJSON :=
  { schema := [], name := [], description := [], version := [], title := []
    websiteURL := [], repository := none, packages := [], remotes := [] }

/-! ### Name grammar and percent-encoding

`domain.ServerNameRegex` is `^[a-zA-Z0-9.-]+/[a-zA-Z0-9._-]+$`. -/

/-- Character class `[a-zA-Z0-9.-]` of the name's first segment. -/
def isC1 (c : Nat) : Bool :=
  (65 ≤ c && c ≤ 90) || (97 ≤ c && c ≤ 122) || (48 ≤ c && c ≤ 57) || c == 46 || c == 45

/-- Character class `[a-zA-Z0-9._-]` of the name's second segment. -/
def isC2 (c : Nat) : Bool := isC1 c || c == 95

/-- Split a byte string at its first `'/'` (byte 47), if any. -/
def nameSplit : GoStr → Option (GoStr × GoStr)
  | [] => none
  | c :: t =>
    if c = 47 then some ([], t)
    else (nameSplit t).map (fun p => (c :: p.1, p.2))

/-- Embeds `domain.ServerNameRegex.MatchString`: both segments nonempty and in
their classes, exactly one `'/'` (neither class contains `'/'`). -/
def validServerName (l : GoStr) : Bool :=
  match nameSplit l with
  | none => false
  | some (a, b) => !a.isEmpty && a.all isC1 && !b.isEmpty && b.all isC2

/-- Hex digit predicate of Go's `net/url` unescaping (`ishex`). -/
def isHexByte (c : Nat) : Bool :=
  (48 ≤ c && c ≤ 57) || (65 ≤ c && c ≤ 70) || (97 ≤ c && c ≤ 102)

/-- Value of a hex digit byte (Go's `unhex`). -/
def unhexByte (c : Nat) : Nat :=
  if c ≤ 57 then c - 48 else if c ≤ 70 then c - 55 else c - 87

/-- Go `url.PathUnescape`: every `%` must begin a valid `%XX` escape,
which decodes to the byte `XX`; anything else is an `EscapeError`. -/
def pathUnescape : GoStr → Option GoStr
  | [] => some []
  | c :: t =>
    if c = 37 then
      match t with
      | a :: b :: t2 =>
        if isHexByte a && isHexByte b then
          (pathUnescape t2).map (fun r => (unhexByte a * 16 + unhexByte b) :: r)
        else none
      | _ => none
    else (pathUnescape t).map (fun r => c :: r)

/-- Upper-case hex digit byte for a value `d < 16`. -/
def hexUpper (d : Nat) : Nat := if d < 10 then 48 + d else 55 + d

/-- RFC 3986 unreserved bytes: `[A-Za-z0-9-._~]`. -/
def isUnreserved (c : Nat) : Bool :=
  (65 ≤ c && c ≤ 90) || (97 ≤ c && c ≤ 122) || (48 ≤ c && c ≤ 57) ||
    c == 45 || c == 46 || c == 95 || c == 126

/-- Modelled from the spec: `percent_encode` — the standard URL
percent-encoding a client applies before placing a name in a path segment
(the repository itself only decodes; no encoder exists under `src/`).
Unreserved bytes pass through, every other byte becomes `%XX`. -/
def percentEncode : GoStr → GoStr
  | [] => []
  | c :: t =>
    if isUnreserved c then c :: percentEncode t
    else 37 :: hexUpper (c / 16) :: hexUpper (c % 16) :: percentEncode t

/-! ### Registry (`internal/registry/registry.go`)

The git store and the YAML decoder are external to the registry's logic
(`gitstore.Store.ReadFile`, `yaml.Unmarshal`); they enter the embedding
as the function parameters of `Env`.  The hashicorp LRU cache is modelled
as a recency-ordered association list (front = most recently used). -/

/-- External collaborators of the registry: the working-copy store's
`ReadFile` and the YAML decoders for manifests and the index. -/
structure Env where
  readFile : GoStr → Option GoStr
  parseServer : GoStr → Option ServerJSON
  parseIndex : GoStr → Option Index

/-- Mutable registry state: the `Registry` struct's `index`, `cache`,
`cacheHits`, `cacheMisses` and `cacheSize` fields. -/
structure RegState where
  index : Option Index
  cache : List (GoStr × ServerJSON)
  hits : Nat
  misses : Nat
  capacity : Nat

/-- Embeds `lru.Cache.Get`: on a hit the entry moves to the front (most recent). -/
def cacheGet (cache : List (GoStr × ServerJSON)) (k : GoStr) :
    Option ServerJSON × List (GoStr × ServerJSON) :=
  match cache.find? (fun p => p.1 == k) with
  | none => (none, cache)
  | some p => (some p.2, p :: cache.eraseP (fun q => q.1 == k))

/-- Embeds `lru.Cache.Add`: insert/update at the front, evict beyond capacity. -/
def cacheAdd (cap : Nat) (cache : List (GoStr × ServerJSON)) (k : GoStr)
    (v : ServerJSON) : List (GoStr × ServerJSON) :=
  ((k, v) :: cache.eraseP (fun q => q.1 == k)).take cap

/-- Errors `Registry.GetServer` can return. -/
inductive GetErr where
  | indexNotLoaded
  | notFound (name : GoStr)
  | readFailed
  | parseFailed
deriving DecidableEq

/-- Embeds `Registry.GetServer` after the URL-decoding step: cache lookup, index
lookup, file read, parse, cache insert. -/
def getServerDecoded (env : Env) (st : RegState) (decodedName : GoStr) :
    Except GetErr ServerJSON × RegState :=
  match cacheGet st.cache decodedName with
  | (some server, cache') =>
    (.ok server, { st with cache := cache', hits := st.hits + 1 })
  | (none, cache') =>
    let st := { st with cache := cache', misses := st.misses + 1 }
    match st.index with
    | none => (.error .indexNotLoaded, st)
    | some idx =>
      match idx.servers.find? (fun e => e.name == decodedName) with
      | none => (.error (.notFound decodedName), st)
      | some entry =>
        match env.readFile entry.path with
        | none => (.error .readFailed, st)
        | some content =>
          match env.parseServer content with
          | none => (.error .parseFailed, st)
          | some server =>
            (.ok server,
             { st with cache := cacheAdd st.capacity st.cache decodedName server })

/-- Embeds `Registry.GetServer`: URL-decode the name, falling back to the raw
name when decoding fails, then look it up. -/
def getServer (env : Env) (st : RegState) (name : GoStr) :
    Except GetErr ServerJSON × RegState :=
  getServerDecoded env st ((pathUnescape name).getD name)

/-- Errors `Registry.LoadIndex` can return. -/
inductive LoadErr where
  | noIndex
  | badIndex
deriving DecidableEq

/-- Embeds `Registry.LoadIndex`: read `index.yaml`, parse it, and install it.
On failure the state is returned unchanged (the old `r.index` survives). -/
def loadIndex (env : Env) (st : RegState) : Except LoadErr Unit × RegState :=
  match env.readFile (gs "index.yaml") with
  | none => (.error .noIndex, st)
  | some content =>
    match env.parseIndex content with
    | none => (.error .badIndex, st)
    | some idx => (.ok (), { st with index := some idx })

/-- Embeds `Registry.Refresh`: purge the cache and reset the counters, then
reload the index. -/
def refresh (env : Env) (st : RegState) : Except LoadErr Unit × RegState :=
  loadIndex env { st with cache := [], hits := 0, misses := 0 }

/-- Embeds `Registry.IndexStatus`. -/
def indexStatus (st : RegState) : String :=
  match st.index with
  | none => "not_loaded"
  | some _ => "valid"

/-- Embeds `domain.CacheStats` with `HitRate` as an exact rational
(Go uses `float64`; the claims only concern the value of the ratio). -/
structure CacheStatsR where
  size : Nat
  capacity : Nat
  hitRate : ℚ
deriving DecidableEq

/-- Embeds `Registry.CacheStats`. -/
def cacheStats (st : RegState) : CacheStatsR :=
  let total := st.hits + st.misses
  { size := st.cache.length
    capacity := st.capacity
    hitRate := if 0 < total then (st.hits : ℚ) / (total : ℚ) else 0 }

/-! ### Listing and pagination -/

/-- Embeds `domain.ServerMeta` (only the shape the list/read path produces;
`publishedAt` is a timestamp and not modelled). -/
structure ServerMeta where
  status : GoStr
  isLatest : Bool
deriving DecidableEq

/-- Embeds `domain.ServerResponse`. -/
structure ServerResponse where
  server : ServerJSON
  meta : Option ServerMeta
deriving DecidableEq

/-- Embeds `domain.ListMetadata`. -/
structure ListMetadata where
  nextCursor : GoStr
  count : Nat
deriving DecidableEq

/-- Embeds `domain.ServerListResponse`. -/
structure ServerListResponse where
  servers : List ServerResponse
  metadata : ListMetadata
deriving DecidableEq

/-- Ordering used by `sort.Slice(servers, ...Name < ...Name)`. -/
def entryLe (e f : IndexEntry) : Prop := strLe e.name f.name

instance (e f : IndexEntry) : Decidable (entryLe e f) :=
  inferInstanceAs (Decidable (strLe _ _))

/-- The sorted copy `ListServers` paginates over (`sort.Slice` by name;
with pairwise-distinct names every correct sort yields this list). -/
def sortByName (l : List IndexEntry) : List IndexEntry :=
  List.insertionSort entryLe l

/-- The cursor scan `for i, s := range servers if s.Name == cursor`:
index of the first entry named `cursor`, if any. -/
def findCursor (cursor : GoStr) : List IndexEntry → Option Nat
  | [] => none
  | e :: t => if e.name == cursor then some 0 else (findCursor cursor t).map (· + 1)

/-- Start position of a page: one past the first entry that equals the
cursor, or `0` when the cursor is absent from the sorted copy. -/
def goStartIdx (cursor : GoStr) (sorted : List IndexEntry) : Nat :=
  match findCursor cursor sorted with
  | some i => i + 1
  | none => 0

/-- The limit clamp at the top of `Registry.ListServers`
(`limit <= 0` → 30, `limit > 100` → 100). -/
def limitClamp (limit : Int) : Int :=
  if limit ≤ 0 then 30 else if 100 < limit then 100 else limit

/-- The minimal manifest `ListServers` builds from an index row when
hydrating an entry fails. -/
def mkFallback (e : IndexEntry) : ServerJSON :=
  { zeroServer with name := e.name, description := e.description, version := e.version }

/-- The hydration loop of `ListServers`: each slice entry is fetched via
`GetServer` (threading cache/counter state), falling back to the index
row on failure; responses carry no `_meta`. -/
def hydrate (env : Env) : List IndexEntry → RegState → List ServerResponse × RegState
  | [], st => ([], st)
  | e :: rest, st =>
    let gr := getServer env st e.name
    let server := match gr.1 with
      | .ok s => s
      | .error _ => mkFallback e
    let tail := hydrate env rest gr.2
    (⟨server, none⟩ :: tail.1, tail.2)

/-- Body of `Registry.ListServers` once the index is present and the
start position has been computed. -/
def listServersCore (env : Env) (st : RegState) (sorted : List IndexEntry)
    (startIdx lim : Nat) : Except Unit ServerListResponse × RegState :=
  let endIdx := min (startIdx + lim) sorted.length
  let slice := (sorted.drop startIdx).take (endIdx - startIdx)
  let hyd := hydrate env slice st
  let nextCursor : GoStr :=
    if endIdx < sorted.length then (((sorted.get? (endIdx - 1)).map (·.name)).getD []) else []
  (.ok { servers := hyd.1, metadata := { nextCursor := nextCursor, count := hyd.1.length } },
   hyd.2)

/-- Embeds `Registry.ListServers`: clamp the limit, sort by name, locate the
cursor, slice, hydrate, and compute the next cursor. -/
def listServers (env : Env) (st : RegState) (cursor : GoStr) (limit : Int) :
    Except Unit ServerListResponse × RegState :=
  match st.index with
  | none => (.error (), st)
  | some idx =>
    let sorted := sortByName idx.servers
    let startIdx := if cursor = [] then 0 else goStartIdx cursor sorted
    listServersCore env st sorted startIdx (limitClamp limit).toNat

/-- Modelled from the spec: the start position the spec's words assign to
a nonempty cursor — "the next page starts at the first entry strictly
greater" — i.e. the index of the first entry whose name exceeds the
cursor (the list length when there is none). -/
def firstStrictlyGreater (cursor : GoStr) : List IndexEntry → Nat
  | [] => 0
  | e :: t => if strLt cursor e.name then 0 else firstStrictlyGreater cursor t + 1

/-- Modelled from the spec: `ListServers` as the spec's cursor sentence
describes it, identical to the code except for the start position of a
nonempty cursor. -/
def listServersSpecCursor (env : Env) (st : RegState) (cursor : GoStr) (limit : Int) :
    Except Unit ServerListResponse × RegState :=
  match st.index with
  | none => (.error (), st)
  | some idx =>
    let sorted := sortByName idx.servers
    let startIdx := if cursor = [] then 0 else firstStrictlyGreater cursor sorted
    listServersCore env st sorted startIdx (limitClamp limit).toNat

/-- A full pagination pass: call `ListServers`, follow `nextCursor`
until it is empty (`fuel` bounds the recursion). -/
def listPassPages (env : Env) (limit : Int) :
    Nat → GoStr → RegState → List ServerListResponse × RegState
  | 0, _, st => ([], st)
  | fuel + 1, cursor, st =>
    match listServers env st cursor limit with
    | (.error _, st') => ([], st')
    | (.ok resp, st') =>
      if resp.metadata.nextCursor = [] then ([resp], st')
      else
        let rest := listPassPages env limit fuel resp.metadata.nextCursor st'
        (resp :: rest.1, rest.2)

/-- Names of the manifests in one page of a list response. -/
def pageNames (r : ServerListResponse) : List GoStr :=
  r.servers.map (fun s => s.server.name)

/-! ### HTTP list handler (`Handlers.ListServers`) -/

/-- Go `strconv.Atoi` (i.e. `ParseInt(s, 10, 64)`): optional sign,
nonempty digit run, and the value must fit a 64-bit int. -/
def goAtoi (s : GoStr) : Option Int :=
  let digitsVal : GoStr → Option Nat := fun ds =>
    if ds = [] then none
    else if ds.all (fun c => 48 ≤ c && c ≤ 57) then
      some (ds.foldl (fun a c => a * 10 + (c - 48)) 0)
    else none
  match s with
  | 43 :: t => (digitsVal t).bind fun v =>
      if v ≤ 2 ^ 63 - 1 then some (v : Int) else none
  | 45 :: t => (digitsVal t).bind fun v =>
      if v ≤ 2 ^ 63 then some (-(v : Int)) else none
  | _ => (digitsVal s).bind fun v =>
      if v ≤ 2 ^ 63 - 1 then some (v : Int) else none

/-- Embeds `Handlers.ListServers`' limit parsing: default 30, overridden only by
a nonempty query value that parses and is positive (`""` models an
absent parameter, as Go's `Query().Get` returns). -/
def handlerLimit (limitStr : GoStr) : Int :=
  if limitStr = [] then 30
  else match goAtoi limitStr with
    | some l => if 0 < l then l else 30
    | none => 30

/-- The page-size cap a list request is ultimately served with. -/
def effectiveLimit (limitStr : GoStr) : Nat :=
  (limitClamp (handlerLimit limitStr)).toNat

/-! ### Webhook (`internal/sync/webhook.go`)

`crypto/hmac`+`crypto/sha256` enter as the abstract `mac` function
(hex-encoded HMAC-SHA256 under the configured secret; `hmac.Equal` is a
constant-time byte comparison, i.e. equality), `encoding/json` as
`parsePush`.  The sync manager's non-blocking trigger emission is the
`triggered` flag of the outcome. -/

/-- Embeds `sync.PushEvent`'s commit entries. -/
structure CommitInfo where
  id : String
  message : String
  added : List String
  removed : List String
  modified : List String
deriving DecidableEq

/-- Embeds `sync.PushEvent`.  `before`/`after` are byte strings because the
handler slices them byte-wise (`event.Before[:8]`). -/
structure PushEvent where
  ref : String
  before : GoStr
  after : GoStr
  repoFullName : String
  repoCloneURL : String
  pusherName : String
  pusherEmail : String
  commits : List CommitInfo
deriving DecidableEq

/-- The webhook handler's collaborators and configuration. -/
structure WebhookEnv where
  mac : GoStr → String
  parsePush : GoStr → Option PushEvent
  branch : String

/-- An incoming webhook request (method, the two relevant headers, body). -/
structure WebhookReq where
  method : String
  signatureHeader : String
  eventHeader : String
  body : GoStr

/-- Observable outcome of one webhook request: the HTTP response
(`none` models a panic escaping the handler), whether `manager.Trigger`
ran, and whether `json.Unmarshal` was reached. -/
structure WOut where
  response : Option (Nat × String)
  triggered : Bool
  parsed : Bool
deriving DecidableEq

/-- Embeds `io.LimitReader(r.Body, 10*1024*1024)` bound. -/
def bodyLimit : Nat := 10 * 1024 * 1024

/-- Embeds `strings.SplitN(signature, "=", 2)` as a split at the first `'='`:
the part before it, and — when a `'='` exists — the part after. -/
def breakEq : List Char → List Char × Option (List Char)
  | [] => ([], none)
  | c :: t =>
    if c = '=' then ([], some t)
    else
      let r := breakEq t
      (c :: r.1, r.2)

/-- Embeds `WebhookHandler.validateSignature`: reject empty or non-`sha256=`
signatures, otherwise compare the hex part with the body's HMAC. -/
def validateSignature (mac : GoStr → String) (signature : String) (body : GoStr) : Bool :=
  if signature = "" then false
  else
    match breakEq signature.data with
    | (_, none) => false
    | (p0, some p1) =>
      if String.mk p0 ≠ "sha256" then false
      else String.mk p1 == mac body

/-- Go's `s[:8]` on a byte string: defined only when the string has at
least 8 bytes; shorter strings make the slice panic. -/
def goSlice8 (s : GoStr) : Option GoStr :=
  if 8 ≤ s.length then some (s.take 8) else none

/-- Embeds `WebhookHandler.ServeHTTP`.  The body read itself cannot fail in the
pure model (`io.LimitReader` truncates without error), so the
`http.StatusBadRequest` branch for a failed read has no counterpart. -/
def serveHTTP (env : WebhookEnv) (req : WebhookReq) : WOut :=
  if req.method ≠ "POST" then ⟨some (405, "method not allowed"), false, false⟩
  else
    let body := req.body.take bodyLimit
    if validateSignature env.mac req.signatureHeader body = false then
      ⟨some (401, "invalid signature"), false, false⟩
    else if req.eventHeader ≠ "push" then
      ⟨some (200, "\x7b\"status\": \"ignored\", \"reason\": \"not a push event\"\x7d"), false, false⟩
    else
      match env.parsePush body with
      | none => ⟨some (400, "invalid payload"), false, true⟩
      | some event =>
        if event.ref ≠ "refs/heads/" ++ env.branch then
          ⟨some (200, "\x7b\"status\": \"ignored\", \"reason\": \"different branch\"\x7d"), false, true⟩
        else
          match goSlice8 event.before, goSlice8 event.after with
          | some _, some _ => ⟨some (200, "\x7b\"status\": \"accepted\"\x7d"), true, true⟩
          | _, _ => ⟨none, false, true⟩

/-! ### Result observers used by counterexamples -/

/-- Whether a load result is an error. -/
def isLoadError : Except LoadErr Unit → Bool
  | .error _ => true
  | .ok _ => false

/-- Whether a list result is the `UNAVAILABLE` (index-not-loaded) error. -/
def isListUnavailable : Except Unit ServerListResponse → Bool
  | .error _ => true
  | .ok _ => false

/-- Page names of a list result (empty on error). -/
def resultPageNames : Except Unit ServerListResponse → List GoStr
  | .error _ => []
  | .ok resp => pageNames resp

/-- The sorted sequence of entry names of an index — the order a full
pagination pass is expected to enumerate. -/
def sortedNames (idx : Index) : List GoStr :=
  (sortByName idx.servers).map (·.name)

/-! ### Concrete fixtures used by witnesses and counterexamples -/

/-- A store/decoder environment in which every read and parse fails. -/
def envNone : Env := ⟨fun _ => none, fun _ => none, fun _ => none⟩

/-- A fresh registry state with no index loaded. -/
def stEmpty : RegState := ⟨none, [], 0, 0, 1000⟩

/-- A registry state with one cache hit and one miss recorded. -/
def stHalf : RegState := ⟨none, [], 1, 1, 1000⟩

/-- A push event for the tracked branch whose commit SHAs are shorter
than 8 bytes. -/
def evShort : PushEvent :=
  { ref := "refs/heads/main", before := gs "abc", after := gs "abc"
    repoFullName := "", repoCloneURL := "", pusherName := "", pusherEmail := ""
    commits := [] }

/-- A webhook environment whose MAC is the constant `"ab"` and whose JSON
decoder yields `evShort` for every body. -/
def envHook : WebhookEnv := ⟨fun _ => "ab", fun _ => some evShort, "main"⟩

/-- A correctly signed push request (under `envHook`). -/
def reqShort : WebhookReq := ⟨"POST", "sha256=ab", "push", gs "payload"⟩

/-- A webhook environment whose MAC is the constant `""`. -/
def envHookNoSig : WebhookEnv := ⟨fun _ => "", fun _ => none, "main"⟩

/-- A push request carrying no signature header. -/
def reqNoSig : WebhookReq := ⟨"POST", "", "push", gs "x"⟩

/-- An unsigned push request whose body exceeds the 10 MiB bound. -/
def reqBig : WebhookReq := ⟨"POST", "", "push", List.replicate (bodyLimit + 1) 65⟩

/-- An index with a single entry, as loaded before a failing refresh. -/
def idxPrev : Index :=
  ⟨gs "1", gs "c0ffee", gs "2024-01-01", [⟨gs "io.example/demo", gs "servers/demo.yaml", gs "demo", gs "1.0.0", []⟩]⟩

/-- A registry state that has `idxPrev` loaded. -/
def stPrev : RegState := ⟨some idxPrev, [], 0, 0, 1000⟩

/-- An index with entries `a/a` and `a/c` (no entry named `a/b`). -/
def idxTwo : Index :=
  ⟨gs "1", gs "c0ffee", gs "2024-01-01",
    [⟨gs "a/a", gs "pa", [], gs "1.0.0", []⟩, ⟨gs "a/c", gs "pc", [], gs "1.0.0", []⟩]⟩

/-- A registry state that has `idxTwo` loaded. -/
def stTwo : RegState := ⟨some idxTwo, [], 0, 0, 1000⟩

/-- An index whose entry `a/a` points at a manifest file that internally
declares a different name (`z/z`). -/
def idxBadFile : Index :=
  ⟨gs "1", gs "c0ffee", gs "2024-01-01",
    [⟨gs "a/a", gs "pa", [], gs "1.0.0", []⟩, ⟨gs "a/b", gs "pb", [], gs "1.0.0", []⟩]⟩

/-- A store in which `pa`'s manifest claims the name `z/z` while `pb`'s
agrees with its index row. -/
def envBadFile : Env :=
  ⟨fun p => if p == gs "pa" then some (gs "fa") else if p == gs "pb" then some (gs "fb") else none,
   fun c =>
     if c == gs "fa" then some { zeroServer with name := gs "z/z", version := gs "1.0.0" }
     else if c == gs "fb" then some { zeroServer with name := gs "a/b", version := gs "1.0.0" }
     else none,
   fun _ => none⟩

/-- A registry state that has `idxBadFile` loaded. -/
def stBadFile : RegState := ⟨some idxBadFile, [], 0, 0, 1000⟩

/-- An index with entries `b/b` and `a/a` (unsorted in index order). -/
def idxGood : Index :=
  ⟨gs "1", gs "c0ffee", gs "2024-01-01",
    [⟨gs "b/b", gs "pb", [], gs "1.0.0", []⟩, ⟨gs "a/a", gs "pa", [], gs "1.0.0", []⟩]⟩

/-- A store whose manifest files agree with `idxGood`'s entry names. -/
def envGood : Env :=
  ⟨fun p => if p == gs "pa" then some (gs "ca") else if p == gs "pb" then some (gs "cb") else none,
   fun c =>
     if c == gs "ca" then some { zeroServer with name := gs "a/a", version := gs "1.0.0" }
     else if c == gs "cb" then some { zeroServer with name := gs "b/b", version := gs "1.0.0" }
     else none,
   fun _ => none⟩

/-- A registry state that has `idxGood` loaded. -/
def stGood : RegState := ⟨some idxGood, [], 0, 0, 1000⟩

end MCPRegistry

namespace MCPRegistry

theorem strLt_irrefl : ∀ a : GoStr, strLt a a = false
  | [] => rfl
  | _ :: as => by simp [strLt, strLt_irrefl as]

theorem strLt_cons_iff {a b : Nat} {as bs : GoStr} :
    strLt (a :: as) (b :: bs) = true ↔ a < b ∨ (a = b ∧ strLt as bs = true) := by
  simp only [strLt]
  split_ifs with h1 h2
  · simp [h1]
  · simp; omega
  · have hab : a = b := by omega
    simp [hab, Nat.lt_irrefl]

theorem strLt_trans : ∀ a b c : GoStr,
    strLt a b = true → strLt b c = true → strLt a c = true
  | a, [], _, h, _ => by cases a <;> simp [strLt] at h
  | _, _ :: _, [], _, h' => by simp [strLt] at h'
  | [], _ :: _, _ :: _, _, _ => by simp [strLt]
  | z :: as, x :: bs, y :: cs, h, h' => by
      rw [strLt_cons_iff] at h h' ⊢
      rcases h with h | ⟨rfl, h⟩
      · rcases h' with h' | ⟨rfl, _⟩
        · exact Or.inl (Nat.lt_trans h h')
        · exact Or.inl h
      · rcases h' with h' | ⟨rfl, h'⟩
        · exact Or.inl h'
        · exact Or.inr ⟨rfl, strLt_trans as bs cs h h'⟩

theorem strLt_connex : ∀ a b : GoStr,
    strLt a b = false → strLt b a = false → a = b
  | [], [], _, _ => rfl
  | [], _ :: _, h, _ => by simp [strLt] at h
  | _ :: _, [], _, h' => by simp [strLt] at h'
  | z :: as, x :: bs, h, h' => by
      have h1 : ¬ (z < x ∨ (z = x ∧ strLt as bs = true)) := by
        rw [← strLt_cons_iff]; simp [h]
      have h2 : ¬ (x < z ∨ (x = z ∧ strLt bs as = true)) := by
        rw [← strLt_cons_iff]; simp [h']
      push_neg at h1 h2
      have hz : z = x := by omega
      subst hz
      have := strLt_connex as bs (by simpa using h1.2 rfl) (by simpa using h2.2 rfl)
      rw [this]

theorem strLt_asymm {a b : GoStr} (h : strLt a b = true) : strLt b a = false := by
  by_contra hc
  have hba : strLt b a = true := by
    cases hx : strLt b a
    · exact absurd hx hc
    · rfl
  have := strLt_trans a b a h hba
  rw [strLt_irrefl] at this
  exact Bool.false_ne_true this

theorem strLe_total (a b : GoStr) : strLe a b ∨ strLe b a := by
  cases hab : strLt a b
  · cases hba : strLt b a
    · exact Or.inl (Or.inr (strLt_connex a b hab hba))
    · exact Or.inr (Or.inl hba)
  · exact Or.inl (Or.inl hab)

theorem strLe_trans {a b c : GoStr} (h : strLe a b) (h' : strLe b c) : strLe a c := by
  rcases h with h | rfl
  · rcases h' with h' | rfl
    · exact Or.inl (strLt_trans a b c h h')
    · exact Or.inl h
  · exact h'

theorem strLt_of_strLe_of_ne {a b : GoStr} (h : strLe a b) (hne : a ≠ b) :
    strLt a b = true := by
  rcases h with h | rfl
  · exact h
  · exact absurd rfl hne

/-! ### Facts about the name grammar and percent-encoding -/

theorem nameSplit_eq : ∀ {l a b : GoStr}, nameSplit l = some (a, b) → l = a ++ 47 :: b
  | [], _, _, h => by simp [nameSplit] at h
  | c :: t, a, b, h => by
      by_cases hc : c = 47
      · subst hc
        rw [nameSplit, if_pos rfl] at h
        obtain ⟨h1, h2⟩ := Prod.mk.injEq .. ▸ Option.some.injEq .. ▸ h
        subst h1; subst h2
        rfl
      · rw [nameSplit, if_neg hc] at h
        cases hs : nameSplit t with
        | none => rw [hs] at h; simp at h
        | some p =>
          obtain ⟨a', b'⟩ := p
          rw [hs] at h
          simp only [Option.map_some', Option.some.injEq, Prod.mk.injEq] at h
          obtain ⟨h1, h2⟩ := h
          subst h1; subst h2
          have ih := nameSplit_eq hs
          simp [ih]

theorem isC1_byte {c : Nat} (h : isC1 c = true) : c ≠ 37 ∧ c < 256 := by
  simp [isC1] at h
  omega

theorem isC2_byte {c : Nat} (h : isC2 c = true) : c ≠ 37 ∧ c < 256 := by
  have h' : isC1 c = true ∨ c = 95 := by simpa [isC2] using h
  rcases h' with h1 | rfl
  · exact isC1_byte h1
  · omega

theorem validServerName_bytes {l : GoStr} (h : validServerName l = true) :
    ∀ c ∈ l, c ≠ 37 ∧ c < 256 := by
  rw [validServerName] at h
  rcases hs : nameSplit l with _ | ⟨a, b⟩
  · rw [hs] at h; simp at h
  · rw [hs] at h
    simp only [Bool.and_eq_true, List.all_eq_true] at h
    obtain ⟨⟨⟨_, ha⟩, _⟩, hb⟩ := h
    have hl := nameSplit_eq hs
    subst hl
    intro c hc
    rcases List.mem_append.mp hc with hc | hc
    · exact isC1_byte (ha c hc)
    · rcases List.mem_cons.mp hc with rfl | hc
      · omega
      · exact isC2_byte (hb c hc)

theorem validServerName_ne_nil {l : GoStr} (h : validServerName l = true) : l ≠ [] := by
  intro hl
  subst hl
  simp [validServerName, nameSplit] at h

theorem pathUnescape_cons_ne {c : Nat} (t : GoStr) (h : ¬ c = 37) :
    pathUnescape (c :: t) = (pathUnescape t).map (fun r => c :: r) := by
  conv_lhs => rw [pathUnescape.eq_def]
  dsimp only
  rw [if_neg h]

theorem pathUnescape_pct (a b : Nat) (t2 : GoStr) :
    pathUnescape (37 :: a :: b :: t2) =
      if isHexByte a && isHexByte b then
        (pathUnescape t2).map (fun r => (unhexByte a * 16 + unhexByte b) :: r)
      else none := by
  conv_lhs => rw [pathUnescape.eq_def]
  dsimp only
  rw [if_pos rfl]

theorem pathUnescape_no_pct : ∀ {l : GoStr}, (∀ c ∈ l, c ≠ 37) → pathUnescape l = some l
  | [], _ => rfl
  | c :: t, h => by
      have hc : c ≠ 37 := h c (List.mem_cons_self c t)
      have ih := pathUnescape_no_pct (l := t) (fun d hd => h d (List.mem_cons_of_mem c hd))
      rw [pathUnescape_cons_ne t hc, ih]
      rfl

theorem pathUnescape_of_valid {l : GoStr} (h : validServerName l = true) :
    pathUnescape l = some l :=
  pathUnescape_no_pct (fun c hc => (validServerName_bytes h c hc).1)

theorem isUnreserved_ne_pct {c : Nat} (h : isUnreserved c = true) : c ≠ 37 := by
  simp [isUnreserved] at h
  omega

theorem isHexByte_hexUpper {d : Nat} (h : d < 16) : isHexByte (hexUpper d) = true := by
  simp [hexUpper, isHexByte]
  split_ifs <;> omega

theorem unhexByte_hexUpper {d : Nat} (h : d < 16) : unhexByte (hexUpper d) = d := by
  simp [hexUpper, unhexByte]
  split_ifs <;> omega

theorem pathUnescape_percentEncode :
    ∀ {l : GoStr}, (∀ c ∈ l, c < 256) → pathUnescape (percentEncode l) = some l
  | [], _ => rfl
  | c :: t, h => by
      have hc : c < 256 := h c (List.mem_cons_self c t)
      have ih := pathUnescape_percentEncode (l := t)
        (fun d hd => h d (List.mem_cons_of_mem c hd))
      by_cases hu : isUnreserved c = true
      · have hne : c ≠ 37 := isUnreserved_ne_pct hu
        rw [percentEncode, if_pos hu, pathUnescape_cons_ne _ hne, ih]
        rfl
      · have hhi : c / 16 < 16 := by omega
        have hlo : c % 16 < 16 := Nat.mod_lt _ (by norm_num)
        rw [percentEncode, if_neg hu, pathUnescape_pct,
          isHexByte_hexUpper hhi, isHexByte_hexUpper hlo]
        simp only [Bool.and_self, if_pos]
        rw [unhexByte_hexUpper hhi, unhexByte_hexUpper hlo, ih]
        have hrec : c / 16 * 16 + c % 16 = c := by omega
        rw [hrec]
        rfl

/-! ### C6: percent-encoding invariance of `GetServer` -/

/-- C6: for every valid server name (per `ServerNameRegex`, hence free of
`%`), `Registry.GetServer` on the percent-encoding of the name returns
exactly what it returns on the name itself — both URL-decode to the same
lookup key, so the cache, index, file and state behaviour coincide. -/
theorem c6_percent_encoding_invariance (env : Env) (st : RegState) (name : GoStr)
    (h : validServerName name = true) :
    getServer env st (percentEncode name) = getServer env st name := by
  have hb := validServerName_bytes h
  have h1 : pathUnescape name = some name :=
    pathUnescape_no_pct (fun c hc => (hb c hc).1)
  have h2 : pathUnescape (percentEncode name) = some name :=
    pathUnescape_percentEncode (fun c hc => (hb c hc).2)
  simp [getServer, h1, h2]

theorem c6_percent_encoding_invariance_witness :
    getServer envNone stEmpty (percentEncode (gs "io.example/demo")) =
      getServer envNone stEmpty (gs "io.example/demo") :=
  c6_percent_encoding_invariance envNone stEmpty (gs "io.example/demo") (by decide)

/-! ### C10: failed URL-decoding falls back to the raw name -/

/-- C10: when percent-decoding of the request name fails,
`Registry.GetServer` proceeds with the raw undecoded string as the lookup
key, and any error it returns is one of index-not-loaded, not-found,
file-read or file-parse — there is no decoding error. -/
theorem c10_unescape_fallback (env : Env) (st : RegState) (name : GoStr)
    (h : pathUnescape name = none) :
    getServer env st name = getServerDecoded env st name ∧
    ∀ e st2, getServer env st name = (.error e, st2) →
      e = .indexNotLoaded ∨ (∃ nm, e = .notFound nm) ∨ e = .readFailed ∨ e = .parseFailed := by
  constructor
  · simp [getServer, h]
  · intro e _ _
    cases e with
    | indexNotLoaded => exact Or.inl rfl
    | notFound nm => exact Or.inr (Or.inl ⟨nm, rfl⟩)
    | readFailed => exact Or.inr (Or.inr (Or.inl rfl))
    | parseFailed => exact Or.inr (Or.inr (Or.inr rfl))

theorem c10_unescape_fallback_witness :
    getServer envNone stEmpty (gs "%zz") = getServerDecoded envNone stEmpty (gs "%zz") ∧
    ∀ e st2, getServer envNone stEmpty (gs "%zz") = (.error e, st2) →
      e = .indexNotLoaded ∨ (∃ nm, e = .notFound nm) ∨ e = .readFailed ∨ e = .parseFailed :=
  c10_unescape_fallback envNone stEmpty (gs "%zz") (by decide)

/-! ### C9: `CacheStats` is total and guards the zero denominator -/

/-- C9: the reported hit rate is `0` when no lookups have been counted and
`hits / (hits + misses)` otherwise, and it always lies in `[0, 1]`. -/
theorem c9_cache_stats_total (st : RegState) :
    (st.hits + st.misses = 0 → (cacheStats st).hitRate = 0) ∧
    (st.hits + st.misses ≠ 0 →
      (cacheStats st).hitRate = (st.hits : ℚ) / ((st.hits : ℚ) + (st.misses : ℚ))) ∧
    0 ≤ (cacheStats st).hitRate ∧ (cacheStats st).hitRate ≤ 1 := by
  refine ⟨fun h0 => by simp [cacheStats, h0], fun h0 => ?_, ?_, ?_⟩
  · have hp : 0 < st.hits + st.misses := Nat.pos_of_ne_zero h0
    simp only [cacheStats, hp, if_pos]
    push_cast
    ring_nf
  · by_cases hp : 0 < st.hits + st.misses
    · simp only [cacheStats, hp, if_pos]
      positivity
    · simp [cacheStats, hp]
  · by_cases hp : 0 < st.hits + st.misses
    · simp only [cacheStats, hp, if_pos]
      rw [div_le_one (by exact_mod_cast hp)]
      exact_mod_cast Nat.le_add_right _ _
    · simp [cacheStats, hp]

theorem c9_cache_stats_total_witness : (cacheStats stHalf).hitRate = 1 / 2 := by
  have h := (c9_cache_stats_total stHalf).2.1 (by decide)
  rw [h]
  norm_num [stHalf]

/-! ### C5: bad signatures are rejected before the body is parsed -/

/-- C5: a missing `X-Hub-Signature-256` header, a header without `'='`,
a scheme other than `sha256`, or a value that differs from the body's
HMAC makes the handler answer 401 without reaching `json.Unmarshal` and
without emitting a sync trigger. -/
theorem c5_bad_signature_rejected (env : WebhookEnv) (req : WebhookReq)
    (hm : req.method = "POST")
    (hlen : req.body.length ≤ bodyLimit)
    (hbad : req.signatureHeader = ""
        ∨ (breakEq req.signatureHeader.data).2 = none
        ∨ ∃ p0 p1, breakEq req.signatureHeader.data = (p0, some p1)
            ∧ (String.mk p0 ≠ "sha256" ∨ String.mk p1 ≠ env.mac req.body)) :
    serveHTTP env req = ⟨some (401, "invalid signature"), false, false⟩ := by
  have htake : req.body.take bodyLimit = req.body := List.take_of_length_le hlen
  have hsig : validateSignature env.mac req.signatureHeader (req.body.take bodyLimit) = false := by
    rw [htake]
    rcases hbad with h | h | ⟨p0, p1, hbk, hor⟩
    · simp [validateSignature, h]
    · by_cases he : req.signatureHeader = ""
      · simp [validateSignature, he]
      · rw [validateSignature, if_neg he]
        rcases hbk : breakEq req.signatureHeader.data with ⟨q0, osnd⟩
        rw [hbk] at h
        cases osnd with
        | none => rfl
        | some _ => simp at h
    · by_cases he : req.signatureHeader = ""
      · simp [validateSignature, he]
      · rw [validateSignature, if_neg he, hbk]
        rcases hor with hor | hor
        · simp [hor]
        · simp [hor]
  simp [serveHTTP, hm, hsig]

theorem c5_bad_signature_rejected_witness :
    serveHTTP envHookNoSig reqNoSig = ⟨some (401, "invalid signature"), false, false⟩ :=
  c5_bad_signature_rejected envHookNoSig reqNoSig rfl (by decide) (Or.inl rfl)

/-! ### C4: oversized webhook bodies -/

/-- C4 counterexample: a POST whose body exceeds 10 MiB is not answered
with 400 or 413 — `io.LimitReader` silently truncates the body, and here
the handler proceeds to signature validation and answers 401. -/
theorem c4_counterexample :
    bodyLimit < reqBig.body.length ∧
    (serveHTTP envHookNoSig reqBig).response = some (401, "invalid signature") ∧
    ∀ s b, (serveHTTP envHookNoSig reqBig).response = some (s, b) → s ≠ 400 ∧ s ≠ 413 := by
  have hresp : serveHTTP envHookNoSig reqBig = ⟨some (401, "invalid signature"), false, false⟩ := by
    simp [serveHTTP, validateSignature, reqBig, envHookNoSig]
  refine ⟨by rw [show reqBig.body = List.replicate (bodyLimit + 1) 65 from rfl,
    List.length_replicate]; omega, by rw [hresp], ?_⟩
  intro s b h
  rw [hresp] at h
  simp only [Option.some.injEq, Prod.mk.injEq] at h
  obtain ⟨rfl, -⟩ := h
  exact ⟨by norm_num, by norm_num⟩

/-- C4 amended: the handler's behaviour on any request equals its
behaviour on the request whose body is truncated to the first 10 MiB —
oversized bodies are processed as their 10 MiB prefix, never rejected for
size. -/
theorem c4_amended_truncation (env : WebhookEnv) (req : WebhookReq) :
    serveHTTP env req = serveHTTP env { req with body := req.body.take bodyLimit } := by
  simp only [serveHTTP, List.take_take, Nat.min_self]

/-! ### C3: a tracked-branch push with a short SHA panics the handler -/

/-- C3 (code bug): for a correctly signed `push` request on the tracked
branch whose `before` field is shorter than 8 bytes, the handler reaches
`event.Before[:8]` and panics — no `200 accepted` response is written and
`manager.Trigger` is never called, contradicting the spec's step 7. -/
theorem c3_short_sha_panics (env : WebhookEnv) (req : WebhookReq) (ev : PushEvent)
    (hm : req.method = "POST")
    (hsig : validateSignature env.mac req.signatureHeader (req.body.take bodyLimit) = true)
    (hev : req.eventHeader = "push")
    (hparse : env.parsePush (req.body.take bodyLimit) = some ev)
    (href : ev.ref = "refs/heads/" ++ env.branch)
    (hshort : ev.before.length < 8) :
    serveHTTP env req = ⟨none, false, true⟩ := by
  have h8 : goSlice8 ev.before = none := by
    simp only [goSlice8, ite_eq_right_iff]
    omega
  simp [serveHTTP, hm, hsig, hev, hparse, href, h8]

theorem c3_short_sha_panics_witness :
    serveHTTP envHook reqShort = ⟨none, false, true⟩ :=
  c3_short_sha_panics envHook reqShort evShort rfl (by decide) rfl rfl (by decide) (by decide)

/-! ### C1: a failed refresh keeps the previously loaded index -/

theorem refresh_fail_state (env : Env) (st : RegState) (e : LoadErr)
    (hfail : (refresh env st).1 = .error e) :
    (refresh env st).2 = { st with cache := [], hits := 0, misses := 0 } := by
  unfold refresh loadIndex at hfail ⊢
  cases hrf : env.readFile (gs "index.yaml") with
  | none => simp [hrf]
  | some content =>
    cases hpi : env.parseIndex content with
    | none => simp [hrf, hpi]
    | some idx2 => simp [hrf, hpi] at hfail

theorem listServers_unavailable (env : Env) (st : RegState) (cursor : GoStr) (limit : Int)
    (h : st.index = none) :
    listServers env st cursor limit = (.error (), st) := by
  simp [listServers, h]

theorem getServer_no_index (env : Env) (st : RegState) (name : GoStr)
    (hidx : st.index = none) (hcache : st.cache = []) :
    (getServer env st name).1 = .error .indexNotLoaded := by
  unfold getServer getServerDecoded cacheGet
  rw [hcache]
  simp [hidx]

theorem listServersCore_ok (env : Env) (st : RegState) (sorted : List IndexEntry)
    (startIdx lim : Nat) :
    ∃ resp st2, listServersCore env st sorted startIdx lim = (.ok resp, st2) :=
  ⟨_, _, rfl⟩

theorem listServers_eq_core (env : Env) (st : RegState) (idx : Index) (cursor : GoStr)
    (limit : Int) (h : st.index = some idx) :
    listServers env st cursor limit =
      listServersCore env st (sortByName idx.servers)
        (if cursor = [] then 0 else goStartIdx cursor (sortByName idx.servers))
        (limitClamp limit).toNat := by
  simp only [listServers, h]

theorem listServers_available (env : Env) (st : RegState) (idx : Index) (cursor : GoStr)
    (limit : Int) (h : st.index = some idx) :
    ∃ resp st2, listServers env st cursor limit = (.ok resp, st2) := by
  rw [listServers_eq_core env st idx cursor limit h]
  exact listServersCore_ok _ _ _ _ _

/-- C1 counterexample: with an index already loaded, a refresh whose
`index.yaml` read fails leaves the status `"valid"` (not `"not_loaded"`)
and `ListServers` keeps answering from the old index (not `UNAVAILABLE`). -/
theorem c1_counterexample :
    isLoadError (refresh envNone stPrev).1 = true ∧
    indexStatus (refresh envNone stPrev).2 = "valid" ∧
    isListUnavailable (listServers envNone (refresh envNone stPrev).2 [] 30).1 = false := by
  decide

/-- C1 amended: a failed `LoadIndex` during `Refresh` leaves `r.index`
untouched while the cache has been purged and the counters reset: with no
index ever loaded the status is `"not_loaded"` and every subsequent
`GetServer` call returns the index-not-loaded error and every
`ListServers` call the unavailable error; a previously loaded index stays
in service with status `"valid"` and list calls keep succeeding. -/
theorem c1_amended_retains_index (env : Env) (st : RegState) (e : LoadErr)
    (hfail : (refresh env st).1 = .error e) :
    (refresh env st).2.index = st.index ∧
    (refresh env st).2.cache = [] ∧
    (st.index = none → indexStatus (refresh env st).2 = "not_loaded" ∧
      (∀ name, (getServer env (refresh env st).2 name).1 = .error .indexNotLoaded) ∧
      (∀ cursor limit,
        (listServers env (refresh env st).2 cursor limit).1 = .error ())) ∧
    (∀ idx, st.index = some idx → indexStatus (refresh env st).2 = "valid" ∧
      ∀ cursor limit, ∃ resp st2,
        listServers env (refresh env st).2 cursor limit = (.ok resp, st2)) := by
  have hst := refresh_fail_state env st e hfail
  have hcache : (refresh env st).2.cache = [] := by rw [hst]
  refine ⟨by rw [hst], hcache, ?_, ?_⟩
  · intro hnone
    have hidx : (refresh env st).2.index = none := by rw [hst]; exact hnone
    refine ⟨by simp [indexStatus, hidx],
      fun name => getServer_no_index env _ name hidx hcache,
      fun cursor limit => ?_⟩
    rw [listServers_unavailable _ _ cursor limit hidx]
  · intro idx hsome
    have hidx : (refresh env st).2.index = some idx := by rw [hst]; exact hsome
    exact ⟨by simp [indexStatus, hidx],
      fun cursor limit => listServers_available _ _ idx cursor limit hidx⟩

theorem c1_amended_retains_index_witness :
    (refresh envNone stPrev).2.index = stPrev.index ∧
    (refresh envNone stPrev).2.cache = [] ∧
    (stPrev.index = none → indexStatus (refresh envNone stPrev).2 = "not_loaded" ∧
      (∀ name, (getServer envNone (refresh envNone stPrev).2 name).1 =
        .error .indexNotLoaded) ∧
      (∀ cursor limit,
        (listServers envNone (refresh envNone stPrev).2 cursor limit).1 = .error ())) ∧
    (∀ idx, stPrev.index = some idx → indexStatus (refresh envNone stPrev).2 = "valid" ∧
      ∀ cursor limit, ∃ resp st2,
        listServers envNone (refresh envNone stPrev).2 cursor limit = (.ok resp, st2)) :=
  c1_amended_retains_index envNone stPrev .noIndex rfl

/-! ### C8: the effective page size is the clamped limit -/

theorem hydrate_length (env : Env) : ∀ (entries : List IndexEntry) (st : RegState),
    (hydrate env entries st).1.length = entries.length
  | [], _ => rfl
  | e :: rest, st => by simp [hydrate, hydrate_length env rest]

/-- C8: a list request is served with page size `clamp(limit, 1, 100)`:
an absent, unparsable or non-positive limit is served as 30, a limit over
100 as 100, a limit in `[1, 100]` verbatim — and the number of rows in
the resulting page is that cap, truncated by the entries remaining after
the cursor position. -/
theorem c8_limit_clamping (env : Env) (st : RegState) (idx : Index)
    (limitStr cursor : GoStr) (h : st.index = some idx) :
    (1 ≤ effectiveLimit limitStr ∧ effectiveLimit limitStr ≤ 100) ∧
    ((limitStr = [] ∨ goAtoi limitStr = none ∨ ∃ l, goAtoi limitStr = some l ∧ l ≤ 0) →
      effectiveLimit limitStr = 30) ∧
    (∀ l, goAtoi limitStr = some l → 100 < l → effectiveLimit limitStr = 100) ∧
    (∀ l, goAtoi limitStr = some l → 1 ≤ l → l ≤ 100 → (effectiveLimit limitStr : Int) = l) ∧
    (∀ resp st2, listServers env st cursor (handlerLimit limitStr) = (.ok resp, st2) →
      resp.metadata.count = min (effectiveLimit limitStr)
        ((sortByName idx.servers).length -
          (if cursor = [] then 0 else goStartIdx cursor (sortByName idx.servers)))) := by
  refine ⟨?_, ?_, ?_, ?_, ?_⟩
  · unfold effectiveLimit limitClamp
    split_ifs <;> omega
  · intro hcase
    unfold effectiveLimit handlerLimit
    rcases hcase with rfl | hnone | ⟨l, hsome, hle⟩
    · decide
    · by_cases hs : limitStr = []
      · simp [hs, limitClamp]
      · simp [hs, hnone, limitClamp]
    · by_cases hs : limitStr = []
      · simp [hs, limitClamp]
      · have h0 : ¬ (0 : Int) < l := by omega
        simp [hs, hsome, h0, limitClamp]
  · intro l hsome hgt
    have hs : limitStr ≠ [] := by rintro rfl; simp [goAtoi] at hsome
    unfold effectiveLimit handlerLimit limitClamp
    have h0 : (0 : Int) < l := by omega
    simp only [hs, if_neg, ite_false, hsome, h0, ite_true, if_pos]
    split_ifs <;> omega
  · intro l hsome h1 h100
    have hs : limitStr ≠ [] := by rintro rfl; simp [goAtoi] at hsome
    have h0 : (0 : Int) < l := by omega
    unfold effectiveLimit handlerLimit limitClamp
    simp only [hs, ite_false, hsome, h0, ite_true, if_pos, if_neg]
    split_ifs <;> omega
  · intro resp st2 hres
    rw [listServers_eq_core env st idx cursor (handlerLimit limitStr) h] at hres
    unfold listServersCore at hres
    simp only [Prod.mk.injEq, Except.ok.injEq] at hres
    obtain ⟨hresp, -⟩ := hres
    rw [← hresp]
    simp only [hydrate_length, List.length_take, List.length_drop]
    unfold effectiveLimit
    omega

/-! ### Sortedness of the pagination copy -/

theorem sortByName_perm (l : List IndexEntry) : List.Perm (sortByName l) l :=
  List.perm_insertionSort _ _

theorem sortByName_sorted (l : List IndexEntry) :
    List.Pairwise entryLe (sortByName l) := by
  haveI : IsTotal IndexEntry entryLe := ⟨fun a b => strLe_total a.name b.name⟩
  haveI : IsTrans IndexEntry entryLe := ⟨fun _ _ _ h h' => strLe_trans h h'⟩
  exact List.sorted_insertionSort entryLe l

/-! ### The cursor scan versus the spec's "first strictly greater" -/

theorem findCursor_none : ∀ (l : List IndexEntry) (c : GoStr),
    c ∉ l.map (·.name) → findCursor c l = none
  | [], _, _ => rfl
  | e :: t, c, h => by
      have h1 : e.name ≠ c := fun he => h (by simp [← he])
      have h2 : c ∉ t.map (·.name) := fun hm => h (by simp [hm])
      simp [findCursor, h1, findCursor_none t c h2]

theorem findCursor_mem : ∀ (l : List IndexEntry) (c : GoStr),
    c ∈ l.map (·.name) → ∃ j, findCursor c l = some j
  | [], _, h => by simp at h
  | e :: t, c, h => by
      by_cases he : e.name = c
      · exact ⟨0, by simp [findCursor, he]⟩
      · have h2 : c ∈ t.map (·.name) := by
          rcases List.mem_map.mp h with ⟨x, hx, hxn⟩
          rcases List.mem_cons.mp hx with rfl | hx
          · exact absurd hxn he
          · exact List.mem_map.mpr ⟨x, hx, hxn⟩
        obtain ⟨j, hj⟩ := findCursor_mem t c h2
        exact ⟨j + 1, by simp [findCursor, he, hj]⟩

theorem goStart_eq_spec : ∀ (l : List IndexEntry) (c : GoStr),
    List.Pairwise entryLe l → (l.map (·.name)).Nodup → c ∈ l.map (·.name) →
    goStartIdx c l = firstStrictlyGreater c l
  | [], c, _, _, hc => by simp at hc
  | e :: t, c, hp, hnd, hc => by
      rw [List.pairwise_cons] at hp
      rw [List.map_cons, List.nodup_cons] at hnd
      by_cases he : e.name = c
      · subst he
        have h1 : goStartIdx e.name (e :: t) = 1 := by
          simp [goStartIdx, findCursor]
        have h2 : firstStrictlyGreater e.name (e :: t) = 1 := by
          rw [firstStrictlyGreater, if_neg (by simp [strLt_irrefl])]
          cases t with
          | nil => rfl
          | cons f t' =>
            have hle : strLe e.name f.name := hp.1 f (List.mem_cons_self f t')
            have hne : e.name ≠ f.name := fun hEq => hnd.1 (by simp [hEq])
            rw [firstStrictlyGreater, if_pos (strLt_of_strLe_of_ne hle hne)]
        rw [h1, h2]
      · have hct : c ∈ t.map (·.name) := by
          rcases List.mem_map.mp hc with ⟨x, hx, hxn⟩
          rcases List.mem_cons.mp hx with rfl | hx
          · exact absurd hxn he
          · exact List.mem_map.mpr ⟨x, hx, hxn⟩
        have hec : strLt e.name c = true := by
          rcases List.mem_map.mp hct with ⟨x, hx, hxn⟩
          exact hxn ▸ strLt_of_strLe_of_ne (hp.1 x hx) (fun hEq => he (hxn ▸ hEq))
        have hnotlt : ¬ strLt c e.name = true := by
          rw [strLt_asymm hec]; simp
        have ih := goStart_eq_spec t c hp.2 hnd.2 hct
        obtain ⟨j, hj⟩ := findCursor_mem t c hct
        have hgt : goStartIdx c t = j + 1 := by simp [goStartIdx, hj]
        have hgl : goStartIdx c (e :: t) = j + 2 := by
          simp [goStartIdx, findCursor, he, hj]
        rw [hgl, firstStrictlyGreater, if_neg hnotlt, ← ih, hgt]

/-! ### C2: cursor semantics of `ListServers` -/

theorem listServersSpec_eq_core (env : Env) (st : RegState) (idx : Index) (cursor : GoStr)
    (limit : Int) (h : st.index = some idx) :
    listServersSpecCursor env st cursor limit =
      listServersCore env st (sortByName idx.servers)
        (if cursor = [] then 0 else firstStrictlyGreater cursor (sortByName idx.servers))
        (limitClamp limit).toNat := by
  simp only [listServersSpecCursor, h]

/-- C2 counterexample: with entries `a/a` and `a/c` and the cursor `a/b`
(not the name of any entry), the code restarts the listing from the first
entry instead of starting at the first name strictly greater than the
cursor, so its page differs from the page the claim describes. -/
theorem c2_counterexample :
    listServers envNone stTwo (gs "a/b") 5 ≠ listServersSpecCursor envNone stTwo (gs "a/b") 5 := by
  intro hcontra
  exact absurd (congrArg (fun r => resultPageNames r.1) hcontra) (by decide)

/-- C2 amended: when the nonempty cursor names an existing entry (and
entry names are pairwise distinct), the page begins at the first entry
strictly greater, exactly as the spec says; when the cursor names no
entry, the scan finds nothing and the page restarts at the beginning of
the sorted listing. -/
theorem c2_amended_cursor_semantics (env : Env) (st : RegState) (idx : Index)
    (cursor : GoStr) (limit : Int)
    (hidx : st.index = some idx)
    (hnodup : (idx.servers.map (·.name)).Nodup)
    (hcur : cursor ≠ []) :
    (cursor ∈ idx.servers.map (·.name) →
      listServers env st cursor limit = listServersSpecCursor env st cursor limit) ∧
    (cursor ∉ idx.servers.map (·.name) →
      listServers env st cursor limit = listServers env st [] limit) := by
  have hperm : List.Perm ((sortByName idx.servers).map (·.name)) (idx.servers.map (·.name)) :=
    (sortByName_perm idx.servers).map _
  constructor
  · intro hmem
    rw [listServers_eq_core env st idx cursor limit hidx,
      listServersSpec_eq_core env st idx cursor limit hidx,
      if_neg hcur, if_neg hcur,
      goStart_eq_spec (sortByName idx.servers) cursor (sortByName_sorted _)
        (hperm.nodup_iff.mpr hnodup) (hperm.mem_iff.mpr hmem)]
  · intro hmem
    rw [listServers_eq_core env st idx cursor limit hidx,
      listServers_eq_core env st idx [] limit hidx,
      if_neg hcur, if_pos rfl]
    have hnone : findCursor cursor (sortByName idx.servers) = none :=
      findCursor_none _ _ (fun hm => hmem (hperm.mem_iff.mp hm))
    simp [goStartIdx, hnone]

theorem c2_amended_cursor_semantics_witness :
    listServers envNone stTwo (gs "a/a") 5 = listServersSpecCursor envNone stTwo (gs "a/a") 5 :=
  (c2_amended_cursor_semantics envNone stTwo idxTwo (gs "a/a") 5 rfl
    (by decide) (by decide)).1 (by decide)

theorem c8_limit_clamping_witness :
    (1 ≤ effectiveLimit (gs "250") ∧ effectiveLimit (gs "250") ≤ 100) ∧
    ((gs "250" = [] ∨ goAtoi (gs "250") = none ∨ ∃ l, goAtoi (gs "250") = some l ∧ l ≤ 0) →
      effectiveLimit (gs "250") = 30) ∧
    (∀ l, goAtoi (gs "250") = some l → 100 < l → effectiveLimit (gs "250") = 100) ∧
    (∀ l, goAtoi (gs "250") = some l → 1 ≤ l → l ≤ 100 →
      (effectiveLimit (gs "250") : Int) = l) ∧
    (∀ resp st2, listServers envNone stPrev [] (handlerLimit (gs "250")) = (.ok resp, st2) →
      resp.metadata.count = min (effectiveLimit (gs "250"))
        ((sortByName idxPrev.servers).length -
          (if ([] : GoStr) = [] then 0 else goStartIdx [] (sortByName idxPrev.servers)))) :=
  c8_limit_clamping envNone stPrev idxPrev (gs "250") [] rfl

/-! ### C7: cache and hydration consistency lemmas -/

theorem cacheOK_get {cache : List (GoStr × ServerJSON)} {k : GoStr}
    (h : ∀ p ∈ cache, p.2.name = p.1) :
    (∀ s, (cacheGet cache k).1 = some s → s.name = k) ∧
    (∀ p ∈ (cacheGet cache k).2, p.2.name = p.1) := by
  unfold cacheGet
  cases hf : cache.find? (fun p => p.1 == k) with
  | none => exact ⟨fun s hs => by simp at hs, h⟩
  | some p =>
    have hmem := List.mem_of_find?_eq_some hf
    have hk : p.1 = k := by simpa using List.find?_some hf
    refine ⟨fun s hs => ?_, fun q hq => ?_⟩
    · simp only [Option.some.injEq] at hs
      rw [← hs, h p hmem, hk]
    · rcases List.mem_cons.mp hq with hqp | hq
      · rw [hqp]; exact h p hmem
      · exact h q (List.mem_of_mem_eraseP hq)

theorem cacheOK_add {cap : Nat} {cache : List (GoStr × ServerJSON)} {k : GoStr}
    {v : ServerJSON} (h : ∀ p ∈ cache, p.2.name = p.1) (hv : v.name = k) :
    ∀ p ∈ cacheAdd cap cache k v, p.2.name = p.1 := by
  intro p hp
  unfold cacheAdd at hp
  rcases List.mem_cons.mp (List.mem_of_mem_take hp) with rfl | hp'
  · exact hv
  · exact h p (List.mem_of_mem_eraseP hp')

theorem getServer_consistent (env : Env) (idx : Index)
    (hfiles : ∀ e ∈ idx.servers,
      ((env.readFile e.path).bind env.parseServer).all (fun s => s.name == e.name) = true)
    (st : RegState) (nm : GoStr)
    (hidx : st.index = some idx)
    (hcache : ∀ p ∈ st.cache, p.2.name = p.1)
    (hfix : (pathUnescape nm).getD nm = nm) :
    (∀ s, (getServer env st nm).1 = .ok s → s.name = nm) ∧
    (getServer env st nm).2.index = st.index ∧
    (∀ p ∈ (getServer env st nm).2.cache, p.2.name = p.1) ∧
    (getServer env st nm).2.capacity = st.capacity := by
  obtain ⟨hget1, hget2⟩ := cacheOK_get (k := nm) hcache
  cases hcg : cacheGet st.cache nm with
  | mk o cache' =>
    rw [hcg] at hget1 hget2
    cases o with
    | some server =>
      have hres : getServer env st nm =
          (.ok server, { st with cache := cache', hits := st.hits + 1 }) := by
        unfold getServer getServerDecoded
        rw [hfix, hcg]
      rw [hres]
      refine ⟨fun s hs => ?_, rfl, hget2, rfl⟩
      simp only [Except.ok.injEq] at hs
      exact hs ▸ hget1 server rfl
    | none =>
      cases hfind : idx.servers.find? (fun e => e.name == nm) with
      | none =>
        have hres : getServer env st nm =
            (.error (.notFound nm),
             { st with cache := cache', misses := st.misses + 1 }) := by
          unfold getServer getServerDecoded
          rw [hfix, hcg]
          simp only [hidx, hfind]
        rw [hres]
        exact ⟨fun s hs => by simp at hs, rfl, hget2, rfl⟩
      | some entry =>
        have hent_mem := List.mem_of_find?_eq_some hfind
        have hent_name : entry.name = nm := by simpa using List.find?_some hfind
        cases hrf : env.readFile entry.path with
        | none =>
          have hres : getServer env st nm =
              (.error .readFailed,
               { st with cache := cache', misses := st.misses + 1 }) := by
            unfold getServer getServerDecoded
            rw [hfix, hcg]
            simp only [hidx, hfind, hrf]
          rw [hres]
          exact ⟨fun s hs => by simp at hs, rfl, hget2, rfl⟩
        | some content =>
          cases hps : env.parseServer content with
          | none =>
            have hres : getServer env st nm =
                (.error .parseFailed,
                 { st with cache := cache', misses := st.misses + 1 }) := by
              unfold getServer getServerDecoded
              rw [hfix, hcg]
              simp only [hidx, hfind, hrf, hps]
            rw [hres]
            exact ⟨fun s hs => by simp at hs, rfl, hget2, rfl⟩
          | some server =>
            have hsname : server.name = nm := by
              have hone := hfiles entry hent_mem
              rw [hrf] at hone
              simp only [Option.some_bind, hps, Option.all] at hone
              exact hent_name ▸ (by simpa using hone)
            have hres : getServer env st nm =
                (.ok server,
                 { st with cache := cacheAdd st.capacity cache' nm server,
                           misses := st.misses + 1 }) := by
              unfold getServer getServerDecoded
              rw [hfix, hcg]
              simp only [hidx, hfind, hrf, hps]
            rw [hres]
            refine ⟨fun s hs => ?_, rfl, ?_, rfl⟩
            · simp only [Except.ok.injEq] at hs
              exact hs ▸ hsname
            · exact cacheOK_add hget2 hsname

theorem hydrate_consistent (env : Env) (idx : Index)
    (hfiles : ∀ e ∈ idx.servers,
      ((env.readFile e.path).bind env.parseServer).all (fun s => s.name == e.name) = true) :
    ∀ (entries : List IndexEntry) (st : RegState),
    st.index = some idx →
    (∀ p ∈ st.cache, p.2.name = p.1) →
    (∀ e ∈ entries, e ∈ idx.servers) →
    (∀ e ∈ entries, (pathUnescape e.name).getD e.name = e.name) →
    ((hydrate env entries st).1.map (fun r => r.server.name) = entries.map (·.name)) ∧
    (hydrate env entries st).2.index = st.index ∧
    (∀ p ∈ (hydrate env entries st).2.cache, p.2.name = p.1)
  | [], st, _, hc, _, _ => ⟨rfl, rfl, hc⟩
  | e :: rest, st, hidx, hc, hmem, hfix => by
      obtain ⟨hok, hidx', hcache', -⟩ :=
        getServer_consistent env idx hfiles st e.name hidx hc
          (hfix e (List.mem_cons_self e rest))
      have hidx2 : (getServer env st e.name).2.index = some idx := by rw [hidx', hidx]
      obtain ⟨ihn, ihi, ihc⟩ :=
        hydrate_consistent env idx hfiles rest (getServer env st e.name).2 hidx2 hcache'
          (fun e' h' => hmem e' (List.mem_cons_of_mem e h'))
          (fun e' h' => hfix e' (List.mem_cons_of_mem e h'))
      simp only [hydrate]
      refine ⟨?_, ?_, ihc⟩
      · rw [List.map_cons, List.map_cons, ihn]
        congr 1
        cases hr : (getServer env st e.name).1 with
        | ok s =>
          simp only [hr]
          exact hok s hr
        | error err =>
          simp only [hr]
          rfl
      · rw [ihi, hidx']

/-! ### C7: pagination over the sorted names -/

theorem limitClamp_toNat_pos (limit : Int) : 1 ≤ (limitClamp limit).toNat := by
  unfold limitClamp
  split_ifs <;> omega

theorem sortedNames_pairwise (idx : Index) : List.Pairwise strLe (sortedNames idx) := by
  rw [sortedNames]
  exact List.pairwise_map.mpr (sortByName_sorted idx.servers)

theorem sortedNames_perm (idx : Index) :
    List.Perm (sortedNames idx) (idx.servers.map (·.name)) :=
  (sortByName_perm idx.servers).map _

theorem sortedNames_length (idx : Index) :
    (sortedNames idx).length = idx.servers.length := by
  rw [sortedNames, List.length_map]
  exact (sortByName_perm idx.servers).length_eq

theorem sortedNames_valid (idx : Index)
    (hvalid : ∀ e ∈ idx.servers, validServerName e.name = true) :
    ∀ nm ∈ sortedNames idx, validServerName nm = true := by
  intro nm hm
  rw [sortedNames] at hm
  rcases List.mem_map.mp hm with ⟨e, he, rfl⟩
  exact hvalid e ((sortByName_perm idx.servers).mem_iff.mp he)

theorem findCursor_get : ∀ (l : List IndexEntry), ((l.map (·.name)).Nodup) →
    ∀ (j : Nat) (hj : j < l.length), findCursor ((l.get ⟨j, hj⟩).name) l = some j
  | [], _, j, hj => absurd hj (by simp)
  | e :: t, _, 0, hj => by simp [findCursor]
  | e :: t, hnd, j + 1, hj => by
      rw [List.map_cons, List.nodup_cons] at hnd
      have hjt : j < t.length := Nat.lt_of_succ_lt_succ hj
      have hmem : (t.get ⟨j, hjt⟩).name ∈ t.map (·.name) :=
        List.mem_map.mpr ⟨_, t.get_mem _ _, rfl⟩
      have hne : ¬ (e.name == (t.get ⟨j, hjt⟩).name) = true := by
        simp only [beq_iff_eq]
        exact fun h => hnd.1 (h ▸ hmem)
      have ih := findCursor_get t hnd.2 j hjt
      rw [List.get_cons_succ]
      rw [findCursor, if_neg hne, ih]
      rfl

theorem page_spec (env : Env) (idx : Index) (limit : Int)
    (hvalid : ∀ e ∈ idx.servers, validServerName e.name = true)
    (hfiles : ∀ e ∈ idx.servers,
      ((env.readFile e.path).bind env.parseServer).all (fun s => s.name == e.name) = true)
    (hnodup : (idx.servers.map (·.name)).Nodup)
    (st : RegState) (cursor : GoStr) (start : Nat)
    (hidx : st.index = some idx)
    (hcache : ∀ p ∈ st.cache, p.2.name = p.1)
    (hcur : (start = 0 ∧ cursor = []) ∨
      (1 ≤ start ∧ ∃ hlt : start - 1 < (sortedNames idx).length,
        cursor = (sortedNames idx).get ⟨start - 1, hlt⟩)) :
    ∃ resp st2, listServers env st cursor limit = (.ok resp, st2) ∧
      pageNames resp = ((sortedNames idx).drop start).take (limitClamp limit).toNat ∧
      resp.metadata.nextCursor =
        (if start + (limitClamp limit).toNat < (sortedNames idx).length
         then ((sortedNames idx).get? (start + (limitClamp limit).toNat - 1)).getD []
         else []) ∧
      st2.index = some idx ∧ (∀ p ∈ st2.cache, p.2.name = p.1) := by
  have hnodup' : (sortedNames idx).Nodup := (sortedNames_perm idx).nodup_iff.mpr hnodup
  have hslen : (sortByName idx.servers).length = (sortedNames idx).length := by
    simp [sortedNames]
  have hstart_le : start ≤ (sortedNames idx).length := by
    rcases hcur with ⟨rfl, -⟩ | ⟨h1, hlt, -⟩
    · omega
    · omega
  have hstarteq : (if cursor = [] then 0
      else goStartIdx cursor (sortByName idx.servers)) = start := by
    rcases hcur with ⟨rfl, rfl⟩ | ⟨h1, hlt, hcureq⟩
    · simp
    · have hmemn : (sortedNames idx).get ⟨start - 1, hlt⟩ ∈ sortedNames idx :=
        (sortedNames idx).get_mem _ _
      have hcne : cursor ≠ [] := by
        rw [hcureq]
        exact validServerName_ne_nil (sortedNames_valid idx hvalid _ hmemn)
      rw [if_neg hcne]
      have hlt' : start - 1 < (sortByName idx.servers).length := by omega
      have hgeteq : (sortedNames idx).get ⟨start - 1, hlt⟩ =
          ((sortByName idx.servers).get ⟨start - 1, hlt'⟩).name := by
        simp [sortedNames, List.get_map]
      have hndS : ((sortByName idx.servers).map (·.name)).Nodup := hnodup'
      have hfc : findCursor cursor (sortByName idx.servers) = some (start - 1) := by
        rw [hcureq, hgeteq]
        exact findCursor_get _ hndS _ hlt'
      simp only [goStartIdx, hfc]
      omega
  rw [listServers_eq_core env st idx cursor limit hidx, hstarteq]
  have hm : ∀ e ∈ (((sortByName idx.servers).drop start).take
      (min (start + (limitClamp limit).toNat) (sortByName idx.servers).length - start)),
      e ∈ idx.servers := fun e he =>
    (sortByName_perm idx.servers).mem_iff.mp
      (List.mem_of_mem_drop (List.mem_of_mem_take he))
  have hf : ∀ e ∈ (((sortByName idx.servers).drop start).take
      (min (start + (limitClamp limit).toNat) (sortByName idx.servers).length - start)),
      (pathUnescape e.name).getD e.name = e.name := fun e he => by
    rw [pathUnescape_of_valid (hvalid e (hm e he))]
    rfl
  obtain ⟨hn, hi, hc2⟩ := hydrate_consistent env idx hfiles _ st hidx hcache hm hf
  refine ⟨_, _, rfl, ?_, ?_, ?_, ?_⟩
  · show (hydrate env _ st).1.map (fun r => r.server.name) = _
    rw [hn, List.map_take, List.map_drop]
    rw [show ((sortByName idx.servers).map fun e => e.name) = sortedNames idx from rfl]
    apply List.take_eq_take.mpr
    rw [List.length_drop]
    omega
  · show (if min (start + (limitClamp limit).toNat) (sortByName idx.servers).length <
        (sortByName idx.servers).length then _ else ([] : GoStr)) = _
    by_cases hend : start + (limitClamp limit).toNat < (sortedNames idx).length
    · rw [if_pos (by omega), if_pos hend]
      have hmin : min (start + (limitClamp limit).toNat) (sortByName idx.servers).length =
          start + (limitClamp limit).toNat := by omega
      rw [hmin]
      rw [show (sortedNames idx).get? (start + (limitClamp limit).toNat - 1) =
        ((sortByName idx.servers).get? (start + (limitClamp limit).toNat - 1)).map (·.name)
        from List.get?_map _ _ _]
    · rw [if_neg (by omega), if_neg hend]
  · show (hydrate env _ st).2.index = some idx
    rw [hi, hidx]
  · exact hc2

theorem pass_spec (env : Env) (idx : Index) (limit : Int)
    (hvalid : ∀ e ∈ idx.servers, validServerName e.name = true)
    (hfiles : ∀ e ∈ idx.servers,
      ((env.readFile e.path).bind env.parseServer).all (fun s => s.name == e.name) = true)
    (hnodup : (idx.servers.map (·.name)).Nodup) :
    ∀ (fuel start : Nat) (cursor : GoStr) (st : RegState),
    st.index = some idx →
    (∀ p ∈ st.cache, p.2.name = p.1) →
    ((start = 0 ∧ cursor = []) ∨ (1 ≤ start ∧ ∃ hlt : start - 1 < (sortedNames idx).length,
        cursor = (sortedNames idx).get ⟨start - 1, hlt⟩)) →
    (sortedNames idx).length + 1 ≤ fuel + start →
    (((listPassPages env limit fuel cursor st).1.map pageNames).flatten =
      (sortedNames idx).drop start) ∧
    (∀ resp ∈ (listPassPages env limit fuel cursor st).1,
      List.Pairwise strLe (pageNames resp)) := by
  intro fuel
  induction fuel with
  | zero =>
    intro start cursor st _ _ hcur hfuel
    exfalso
    rcases hcur with ⟨rfl, -⟩ | ⟨h1, hlt, -⟩ <;> omega
  | succ fuel ih =>
    intro start cursor st hidx hcache hcur hfuel
    obtain ⟨resp, st2, hres, hpn, hnext, hidn2, hcache2⟩ :=
      page_spec env idx limit hvalid hfiles hnodup st cursor start hidx hcache hcur
    have hstep : listPassPages env limit (fuel + 1) cursor st =
        (if resp.metadata.nextCursor = [] then ([resp], st2)
         else ((resp :: (listPassPages env limit fuel resp.metadata.nextCursor st2).1),
               (listPassPages env limit fuel resp.metadata.nextCursor st2).2)) := by
      conv_lhs => rw [listPassPages.eq_def]
      dsimp only
      rw [hres]
    by_cases hnc : resp.metadata.nextCursor = []
    · rw [hstep, if_pos hnc]
      have hnl : ¬ (start + (limitClamp limit).toNat < (sortedNames idx).length) := by
        intro hlt2
        rw [hnext, if_pos hlt2] at hnc
        have hgetlt : start + (limitClamp limit).toNat - 1 < (sortedNames idx).length := by
          omega
        rw [List.get?_eq_get hgetlt] at hnc
        simp only [Option.getD_some] at hnc
        exact validServerName_ne_nil
          (sortedNames_valid idx hvalid _ ((sortedNames idx).get_mem _ _)) hnc
      constructor
      · simp only [List.map_cons, List.map_nil, List.flatten_cons,
          List.flatten_nil, List.append_nil]
        rw [hpn]
        exact List.take_of_length_le (by rw [List.length_drop]; omega)
      · intro r hr
        rcases List.mem_singleton.mp hr with rfl
        rw [hpn]
        exact List.Pairwise.sublist
          ((List.take_sublist _ _).trans (List.drop_sublist _ _))
          (sortedNames_pairwise idx)
    · rw [hstep, if_neg hnc]
      have hlt2 : start + (limitClamp limit).toNat < (sortedNames idx).length := by
        by_contra h
        rw [hnext, if_neg h] at hnc
        exact hnc rfl
      have hbound : start + (limitClamp limit).toNat - 1 < (sortedNames idx).length := by
        omega
      have hnceq : resp.metadata.nextCursor =
          (sortedNames idx).get ⟨start + (limitClamp limit).toNat - 1, hbound⟩ := by
        rw [hnext, if_pos hlt2, List.get?_eq_get hbound]
        rfl
      have hlimpos := limitClamp_toNat_pos limit
      obtain ⟨ihj, ihp⟩ := ih (start + (limitClamp limit).toNat)
        resp.metadata.nextCursor st2 hidn2 hcache2
        (Or.inr ⟨by omega, ⟨hbound, hnceq⟩⟩)
        (by omega)
      constructor
      · simp only [List.map_cons, List.flatten_cons]
        rw [hpn, ihj]
        exact List.drop_take_append_drop _ _ _
      · intro r hr
        rcases List.mem_cons.mp hr with hre | hr2
        · rw [hre, hpn]
          exact List.Pairwise.sublist
            ((List.take_sublist _ _).trans (List.drop_sublist _ _))
            (sortedNames_pairwise idx)
        · exact ihp r hr2

/-! ### C7: the claim and its amendment -/

/-- C7 counterexample: entry names are pairwise distinct, yet a page of a
full pagination pass is not non-decreasing by name — one manifest file
internally declares a name (`z/z`) different from its index row (`a/a`),
and `ListServers` serves the file's name. -/
theorem c7_counterexample :
    (idxBadFile.servers.map (·.name)).Nodup ∧
    ¬ (∀ resp ∈ (listPassPages envBadFile 30 3 [] stBadFile).1,
        List.Pairwise strLe (pageNames resp)) := by
  decide

/-- C7 amended: within one index generation whose entry names are pairwise
distinct, match the name grammar, and agree with the names declared inside
their manifest files (and with any cached entries), every page of a full
pagination pass is non-decreasing by name, the concatenated pass
enumerates exactly the sorted entry names, and no name repeats. -/
theorem c7_amended_pagination (env : Env) (st : RegState) (idx : Index)
    (limit : Int) (fuel : Nat)
    (hidx : st.index = some idx)
    (hnodup : (idx.servers.map (·.name)).Nodup)
    (hvalid : ∀ e ∈ idx.servers, validServerName e.name = true)
    (hfiles : ∀ e ∈ idx.servers,
      ((env.readFile e.path).bind env.parseServer).all (fun s => s.name == e.name) = true)
    (hcache : ∀ p ∈ st.cache, p.2.name = p.1)
    (hfuel : idx.servers.length + 1 ≤ fuel) :
    (∀ resp ∈ (listPassPages env limit fuel [] st).1,
      List.Pairwise strLe (pageNames resp)) ∧
    ((listPassPages env limit fuel [] st).1.map pageNames).flatten = sortedNames idx ∧
    ((listPassPages env limit fuel [] st).1.map pageNames).flatten.Nodup := by
  obtain ⟨hj, hp⟩ := pass_spec env idx limit hvalid hfiles hnodup fuel 0 [] st hidx hcache
    (Or.inl ⟨rfl, rfl⟩) (by rw [sortedNames_length]; omega)
  rw [List.drop_zero] at hj
  exact ⟨hp, hj, hj ▸ (sortedNames_perm idx).nodup_iff.mpr hnodup⟩

theorem c7_amended_pagination_witness :
    (∀ resp ∈ (listPassPages envGood 1 3 [] stGood).1,
      List.Pairwise strLe (pageNames resp)) ∧
    ((listPassPages envGood 1 3 [] stGood).1.map pageNames).flatten = sortedNames idxGood ∧
    ((listPassPages envGood 1 3 [] stGood).1.map pageNames).flatten.Nodup :=
  c7_amended_pagination envGood stGood idxGood 1 3 rfl (by decide) (by decide)
    (by decide) (by decide) (by decide)

end MCPRegistry
